import Mathlib

/-!
Verification development for the elastic-integration-corpus-generator-tool
repository.

The corpus driver (internal/corpus/generator.go) is embedded directly:
`sanitizeFilename`, `NewGeneratorWithTemplate` and the emission loop of
`eventsPayloadFromFields`.  Strings are modelled as byte lists (`List Nat`,
the Go code works on `[]byte`) or as `List Char` where the Go code works on
`string`.

The genlib generation engine (template parser and per-type value
synthesizer) is exercised by the repository only through its tests; its
definitions are modelled from the specification, as noted on each
definition.
-/

namespace CorpusGen

/-- replaceAll models Go strings.Replace with n = -1 for a single-character
pattern: every occurrence of the character is replaced. -/
def replaceAll (old new : Char) (s : List Char) : List Char :=
  s.map fun c => if c = old then new else c

/-- sanitizeFilename from internal/corpus/generator.go: four successive
replacement passes turning space, colon, forward slash and backslash into a
dash. -/
def sanitizeFilename (s : List Char) : List Char :=
  replaceAll '\\' '-' (replaceAll '/' '-' (replaceAll ':' '-' (replaceAll ' ' '-' s)))

/-- The per-character sanitisation described by the spec: each of the four
dangerous characters maps to a dash, every other character is preserved. -/
def sanitizeChar (c : Char) : Char :=
  if c = ' ' ∨ c = ':' ∨ c = '/' ∨ c = '\\' then '-' else c

/-- C10: sanitizeFilename replaces exactly the four characters space, colon,
slash, backslash by a dash, preserves every other character and the length,
and its output contains none of the four characters. -/
theorem sanitizeFilename_spec (s : List Char) :
    sanitizeFilename s = s.map sanitizeChar ∧
    (sanitizeFilename s).length = s.length ∧
    ∀ c ∈ sanitizeFilename s, c ≠ ' ' ∧ c ≠ ':' ∧ c ≠ '/' ∧ c ≠ '\\' := by
  have hmap : sanitizeFilename s = s.map sanitizeChar := by
    simp only [sanitizeFilename, replaceAll, List.map_map]
    refine List.map_congr_left ?_
    intro c _
    simp only [Function.comp, sanitizeChar]
    by_cases h1 : c = ' '
    · subst h1; decide
    by_cases h2 : c = ':'
    · subst h2; decide
    by_cases h3 : c = '/'
    · subst h3; decide
    by_cases h4 : c = '\\'
    · subst h4; decide
    simp [h1, h2, h3, h4]
  refine ⟨hmap, by rw [hmap]; exact List.length_map s sanitizeChar, ?_⟩
  intro c hc
  rw [hmap] at hc
  rcases List.mem_map.mp hc with ⟨x, _, rfl⟩
  by_cases h : x = ' ' ∨ x = ':' ∨ x = '/' ∨ x = '\\'
  · simp only [sanitizeChar, if_pos h]; decide
  · simp only [sanitizeChar, if_neg h]
    push_neg at h
    exact h

theorem sanitizeFilename_spec_witness :
    '-' ≠ ' ' ∧ '-' ≠ ':' ∧ '-' ≠ '/' ∧ '-' ≠ '\\' :=
  (sanitizeFilename_spec [' ', 'a']).2.2 '-' (by decide)

/-- Modelled from the spec: the supported field type tags (closed
enumeration, spec section 6); the genlib fields package is not part of the
given sources. -/
inductive FieldType where
  | keyword
  | constantKeyword
  | bool
  | integer
  | long
  | unsignedLong
  | float
  | double
  | halfFloat
  | scaledFloat
  | ip
  | geoPoint
  | date
deriving DecidableEq

/-- Modelled from the spec: the tagged value type of spec section 9
(Value = Int | Float | Bool | String); strings are byte lists as in the Go
sources. -/
inductive EmittedValue where
  | bytes (bs : List Nat)
  | num (n : Int)
  | boolean (b : Bool)
deriving DecidableEq

/-- Modelled from the spec: a field descriptor (name, declared type,
optional static value), spec section 3; genlib fields is not in the given
sources. -/
structure Field where
  name : String
  type : FieldType
  value : Option EmittedValue := none

/-- Modelled from the spec: per-field configuration entry
(cardinality / fuzziness / range / static value override), spec sections 3
and 6; genlib config is not in the given sources. -/
structure FieldConfig where
  name : String
  cardinality : Option Nat := none
  fuzziness : Option Nat := none
  range : Option Nat := none
  value : Option EmittedValue := none

/-- Modelled from the spec: a Config is a collection of FieldConfig entries
keyed by field name; genlib config is not in the given sources. -/
structure Config where
  entries : List FieldConfig := []

/-- Template type selector templateTypeCustom from
internal/corpus/generator.go (iota constant 0). -/
def templateTypeCustom : Nat := 0

/-- Template type selector templateTypeGoText from
internal/corpus/generator.go (iota constant 1). -/
def templateTypeGoText : Nat := 1

/-- The error values produced by internal/corpus/generator.go;
errNotValidTemplate is ErrNotValidTemplate. -/
inductive GenError where
  | errNotValidTemplate
deriving DecidableEq

/-- GeneratorCorpus from internal/corpus/generator.go.  The afero
filesystem handle and the timestamp closure are I/O collaborators outside
the embedding; the remaining fields are kept. -/
structure GeneratorCorpus where
  config : Config
  location : String
  templateType : Nat

/-- The Go zero value GeneratorCorpus\x7b\x7d returned together with
ErrNotValidTemplate. -/
def emptyGeneratorCorpus : GeneratorCorpus :=
  ⟨⟨[]⟩, "", 0⟩

/-- NewGeneratorWithTemplate from internal/corpus/generator.go: the
template type string selects the selector constant, any other string
yields (GeneratorCorpus\x7b\x7d, ErrNotValidTemplate).  The Go function
returns a pair (value, error); it is embedded as a pair with an optional
error. -/
def NewGeneratorWithTemplate (config : Config) (location templateType : String) :
    GeneratorCorpus × Option GenError :=
  if templateType = "placeholder" then
    (⟨config, location, templateTypeCustom⟩, none)
  else if templateType = "gotext" then
    (⟨config, location, templateTypeGoText⟩, none)
  else
    (emptyGeneratorCorpus, some GenError.errNotValidTemplate)

/-- C8: NewGeneratorWithTemplate returns ErrNotValidTemplate and the empty
GeneratorCorpus for every template type string other than "placeholder"
and "gotext", and for those two strings it returns a GeneratorCorpus
carrying the corresponding selector and no error. -/
theorem newGeneratorWithTemplate_spec (config : Config) (loc s : String)
    (h1 : s ≠ "placeholder") (h2 : s ≠ "gotext") :
    NewGeneratorWithTemplate config loc s
      = (emptyGeneratorCorpus, some GenError.errNotValidTemplate) ∧
    NewGeneratorWithTemplate config loc "placeholder"
      = (⟨config, loc, templateTypeCustom⟩, none) ∧
    NewGeneratorWithTemplate config loc "gotext"
      = (⟨config, loc, templateTypeGoText⟩, none) := by
  refine ⟨?_, by simp [NewGeneratorWithTemplate], by simp [NewGeneratorWithTemplate]⟩
  simp [NewGeneratorWithTemplate, h1, h2]

theorem newGeneratorWithTemplate_spec_witness :
    NewGeneratorWithTemplate ⟨[]⟩ "loc" "xml"
      = (emptyGeneratorCorpus, some GenError.errNotValidTemplate) :=
  (newGeneratorWithTemplate_spec ⟨[]⟩ "loc" "xml" (by decide) (by decide)).1

/-- Modelled from the spec: helper of the placeholder parser look-ahead
(the genlib parser is not in the given sources, only its test fixtures
are): the terminating delimiter is two closing braces (bytes 125 125);
closeBraces consumes one closing brace and returns the rest. -/
def closeBraces : List Nat → Option (List Nat)
  | 125 :: rest => some rest
  | _ => none

lemma closeBraces_eq_some :
    ∀ l rest, closeBraces l = some rest → l = 125 :: rest := by
  intro l rest h
  rw [closeBraces.eq_def] at h
  split at h
  · injection h with h'
    rw [h']
  · cases h

/-- Modelled from the spec: the look-ahead of the placeholder parser (spec
section 4.1).  The identifier is the contiguous run of bytes other than a
closing brace (byte 125) and must be terminated by two closing braces; on
success the identifier and the remaining input are returned. -/
def takeIdent : List Nat → Option (List Nat × List Nat)
  | [] => none
  | b :: rest =>
    if b = 125 then (closeBraces rest).map fun r => ([], r)
    else (takeIdent rest).map fun p => (b :: p.1, p.2)

lemma takeIdent_length :
    ∀ l ident rest, takeIdent l = some (ident, rest) → rest.length ≤ l.length := by
  intro l
  induction l with
  | nil => intro ident rest h; simp [takeIdent] at h
  | cons b tl ih =>
    intro ident rest h
    rw [takeIdent] at h
    by_cases hb : b = 125
    · rw [if_pos hb] at h
      rcases Option.map_eq_some'.mp h with ⟨r, hx, hf⟩
      injection hf with h1 h2
      have := closeBraces_eq_some tl r hx
      subst h2
      rw [this]
      simp
      omega
    · rw [if_neg hb] at h
      rcases Option.map_eq_some'.mp h with ⟨⟨i2, r2⟩, hx, hf⟩
      injection hf with h1 h2
      have := ih i2 r2 hx
      subst h2
      simp
      omega

/-- Modelled from the spec: the placeholder-template parser core (spec
section 4.1; the genlib parser is not in the given sources, only its test
fixtures are).  It scans left to right keeping an accumulator for the
current literal fragment; on the opener (two opening braces and a dot,
bytes 123 123 46) followed by a well-terminated identifier it closes the
accumulator off as that field's prefix, otherwise the byte is kept
verbatim in the accumulator; the final accumulator becomes the trailing
fragment.  Returns (ordered field list, list of (field, prefix) pairs,
trailing fragment). -/
def parseCT (acc : List Nat) : List Nat → List (List Nat) × List (List Nat × List Nat) × List Nat
  | [] => ([], [], acc)
  | b :: b2 :: b3 :: rest2 =>
    if b = 123 ∧ b2 = 123 ∧ b3 = 46 then
      match h : takeIdent rest2 with
      | some (ident, rest3) =>
        let out := parseCT [] rest3
        (ident :: out.1, (ident, acc) :: out.2.1, out.2.2)
      | none => parseCT (acc ++ [b]) (b2 :: b3 :: rest2)
    else parseCT (acc ++ [b]) (b2 :: b3 :: rest2)
  | b :: rest => parseCT (acc ++ [b]) rest
termination_by l => l.length
decreasing_by
  · have := takeIdent_length rest2 ident rest3 h
    simp
    omega
  · simp
  · simp
  · simp

/-- Modelled from the spec: parseCustomTemplate, the entry point of the
placeholder parser (spec section 4.1), starting with an empty literal
accumulator. -/
def parseCustomTemplate (template : List Nat) :
    List (List Nat) × List (List Nat × List Nat) × List Nat :=
  parseCT [] template

/-- Whether a byte sequence begins with the placeholder opener: two
opening braces followed by a dot (bytes 123 123 46). -/
def beginsOpener : List Nat → Bool
  | b :: b2 :: b3 :: _ => b == 123 && b2 == 123 && b3 == 46
  | _ => false

/-- Whether a byte sequence contains the placeholder opener anywhere. -/
def hasOpener : List Nat → Bool
  | [] => false
  | b :: rest => beginsOpener (b :: rest) || hasOpener rest

lemma parseCT_literal (acc : List Nat) (b : Nat) (rest : List Nat)
    (h : beginsOpener (b :: rest) = false) :
    parseCT acc (b :: rest) = parseCT (acc ++ [b]) rest := by
  cases rest with
  | nil => rw [parseCT.eq_3 acc b [] (fun _ _ _ hh => by cases hh)]
  | cons b2 rest' =>
    cases rest' with
    | nil => rw [parseCT.eq_3 acc b [b2] (fun _ _ _ hh => by simp at hh)]
    | cons b3 rest2 =>
      have hcond : ¬(b = 123 ∧ b2 = 123 ∧ b3 = 46) := by
        simp only [beginsOpener, Bool.and_eq_false_eq_eq_false_or_eq_false,
          beq_eq_false_iff_ne, ne_eq] at h
        tauto
      rw [parseCT.eq_2, if_neg hcond]

lemma parseCT_opener (acc rest2 ident rest3 : List Nat)
    (h : takeIdent rest2 = some (ident, rest3)) :
    parseCT acc (123 :: 123 :: 46 :: rest2)
      = (ident :: (parseCT [] rest3).1, (ident, acc) :: (parseCT [] rest3).2.1,
         (parseCT [] rest3).2.2) := by
  rw [parseCT.eq_2, if_pos ⟨rfl, rfl, rfl⟩]
  split
  · rename_i ident' rest3' heq
    rw [h] at heq
    injection heq with h'
    injection h' with h1 h2
    subst h1
    subst h2
    rfl
  · rename_i heq
    rw [h] at heq
    cases heq

/-- C2: a literal opening brace that does not begin a valid placeholder
opener is kept verbatim in the current literal fragment by the parser; in
particular on the fixture input of three opening braces, a dot, the field
byte 102 and two closing braces, the extra leading brace becomes the
prefix of that field and the field is still extracted, with empty
trailing. -/
theorem parseCustomTemplate_literal_brace :
    (∀ acc rest, beginsOpener (123 :: rest) = false →
      parseCT acc (123 :: rest) = parseCT (acc ++ [123]) rest) ∧
    parseCustomTemplate [123, 123, 123, 46, 102, 125, 125]
      = ([[102]], [([102], [123])], []) := by
  constructor
  · intro acc rest h
    exact parseCT_literal acc 123 rest h
  · have s1 : parseCT [] [123, 123, 123, 46, 102, 125, 125]
        = parseCT [123] [123, 123, 46, 102, 125, 125] := by
      have := parseCT_literal [] 123 [123, 123, 46, 102, 125, 125] (by decide)
      simpa using this
    have ht : takeIdent [102, 125, 125] = some ([102], []) := by decide
    have s2 := parseCT_opener [123] [102, 125, 125] [102] [] ht
    rw [parseCustomTemplate, s1, s2, parseCT.eq_1]

theorem parseCustomTemplate_literal_brace_witness :
    beginsOpener (123 :: [120]) = false ∧
    parseCT [] (123 :: [120]) = parseCT ([] ++ [123]) [120] :=
  ⟨by decide, parseCustomTemplate_literal_brace.1 [] [120] (by decide)⟩

/-- C5: a template containing no placeholder opener parses to an empty
ordered-field list, an empty prefix map and the whole input as the
trailing fragment. -/
theorem parseCustomTemplate_no_placeholder (template : List Nat)
    (h : hasOpener template = false) :
    parseCustomTemplate template = ([], [], template) := by
  have main : ∀ l acc, hasOpener l = false → parseCT acc l = ([], [], acc ++ l) := by
    intro l
    induction l with
    | nil => intro acc _; rw [parseCT.eq_1]; simp
    | cons b rest ih =>
      intro acc hl
      rw [hasOpener, Bool.or_eq_false_iff] at hl
      rw [parseCT_literal acc b rest hl.1, ih (acc ++ [b]) hl.2]
      simp
  have := main template [] h
  rw [parseCustomTemplate, this]
  simp

theorem parseCustomTemplate_no_placeholder_witness :
    parseCustomTemplate [110, 111] = ([], [], [110, 111]) :=
  parseCustomTemplate_no_placeholder [110, 111] (by decide)

lemma parseCT_two_fields_fixture :
    parseCustomTemplate [123, 123, 46, 97, 125, 125, 32, 123, 123, 46, 98, 125, 125]
      = ([[97], [98]], [([97], []), ([98], [32])], []) := by
  have ht1 : takeIdent [97, 125, 125, 32, 123, 123, 46, 98, 125, 125]
      = some ([97], [32, 123, 123, 46, 98, 125, 125]) := by decide
  have ht2 : takeIdent [98, 125, 125] = some ([98], []) := by decide
  have s1 := parseCT_opener [] [97, 125, 125, 32, 123, 123, 46, 98, 125, 125]
    [97] [32, 123, 123, 46, 98, 125, 125] ht1
  have s2 : parseCT [] [32, 123, 123, 46, 98, 125, 125]
      = parseCT [32] [123, 123, 46, 98, 125, 125] := by
    have := parseCT_literal [] 32 [123, 123, 46, 98, 125, 125] (by decide)
    simpa using this
  have s3 := parseCT_opener [32] [98, 125, 125] [98] [] ht2
  rw [parseCustomTemplate, s1, s2, s3, parseCT.eq_1]

/-- Total number of bytes in a list of written chunks. -/
def sumLen (l : List (List Nat)) : Nat := (l.map List.length).sum

lemma sumLen_nil : sumLen [] = 0 := rfl

lemma sumLen_cons (a : List Nat) (l : List (List Nat)) :
    sumLen (a :: l) = a.length + sumLen l := by
  simp [sumLen]

/-- The emission loop of eventsPayloadFromFields
(internal/corpus/generator.go, lines 139 to 154): while currentSize is
below totSize, the generator emits one record (emit, indexed by the
iteration counter), the newline byte 10 is appended after the
createPayload prefix, the whole buffer is written to the file and
currentSize grows by the buffer length; an Emit or Write error aborts the
loop and is returned.  The result is the list of chunks successfully
written paired with the optional error. -/
def eventsLoop {ε : Type} (emit : Nat → Except ε (List Nat))
    (write : List Nat → Except ε Unit) (createPayload : List Nat) (totSize : Nat)
    (n currentSize : Nat) : List (List Nat) × Option ε :=
  if _h : currentSize < totSize then
    match emit n with
    | .error e => ([], some e)
    | .ok r =>
      let chunk := createPayload ++ r ++ [10]
      match write chunk with
      | .error e => ([], some e)
      | .ok _ =>
        let out := eventsLoop emit write createPayload totSize (n + 1)
          (currentSize + chunk.length)
        (chunk :: out.1, out.2)
  else ([], none)
termination_by totSize - currentSize
decreasing_by
  have h1 : 1 ≤ (createPayload ++ r ++ [10]).length := by
    simp only [List.length_append, List.length_cons, List.length_nil]
    omega
  omega

/-- The emission loop as entered by eventsPayloadFromFields: iteration
counter and cumulative size both start at zero. -/
def eventsPayloadLoop {ε : Type} (emit : Nat → Except ε (List Nat))
    (write : List Nat → Except ε Unit) (createPayload : List Nat) (totSize : Nat) :
    List (List Nat) × Option ε :=
  eventsLoop emit write createPayload totSize 0 0

/-- An emit function that always succeeds, producing the record bytes
given by recs. -/
def okEmit (ε : Type) (recs : Nat → List Nat) : Nat → Except ε (List Nat) :=
  fun i => Except.ok (recs i)

/-- A sink whose Write always succeeds. -/
def okWrite (ε : Type) : List Nat → Except ε Unit :=
  fun _ => Except.ok ()

/-- The buffer contents written at iteration i: createPayload prefix,
the emitted record, and the newline byte. -/
def chunkOf (cp : List Nat) (recs : Nat → List Nat) (i : Nat) : List Nat :=
  cp ++ recs i ++ [10]

lemma eventsLoop_stop {ε : Type} (emit : Nat → Except ε (List Nat)) (write cp tot n cur)
    (h : ¬ cur < tot) : eventsLoop emit write cp tot n cur = ([], none) := by
  unfold eventsLoop
  rw [dif_neg h]

lemma eventsLoop_emit_err {ε : Type} (emit : Nat → Except ε (List Nat)) (write cp tot n cur)
    (e : ε) (hcur : cur < tot) (he : emit n = .error e) :
    eventsLoop emit write cp tot n cur = ([], some e) := by
  unfold eventsLoop
  rw [dif_pos hcur, he]

lemma eventsLoop_write_err {ε : Type} (emit : Nat → Except ε (List Nat)) (write cp tot n cur)
    (r : List Nat) (e : ε)
    (hcur : cur < tot) (he : emit n = .ok r) (hw : write (cp ++ r ++ [10]) = .error e) :
    eventsLoop emit write cp tot n cur = ([], some e) := by
  unfold eventsLoop
  rw [dif_pos hcur, he]
  simp only []
  rw [hw]

lemma eventsLoop_step {ε : Type} (emit : Nat → Except ε (List Nat)) (write cp tot n cur)
    (r : List Nat)
    (hcur : cur < tot) (he : emit n = .ok r) (hw : write (cp ++ r ++ [10]) = .ok ()) :
    eventsLoop emit write cp tot n cur =
      ((cp ++ r ++ [10]) :: (eventsLoop emit write cp tot (n + 1)
          (cur + (cp ++ r ++ [10]).length)).1,
       (eventsLoop emit write cp tot (n + 1) (cur + (cp ++ r ++ [10]).length)).2) := by
  conv_lhs => unfold eventsLoop
  rw [dif_pos hcur, he]
  simp only []
  rw [hw]

lemma eventsLoop_ok_spec (ε : Type) (recs : Nat → List Nat) (cp : List Nat) (tot : Nat) :
    ∀ m n cur, tot - cur ≤ m →
      (eventsLoop (okEmit ε recs) (okWrite ε) cp tot n cur).2 = none ∧
      (tot ≤ cur → (eventsLoop (okEmit ε recs) (okWrite ε) cp tot n cur).1 = []) ∧
      tot ≤ cur + sumLen (eventsLoop (okEmit ε recs) (okWrite ε) cp tot n cur).1 ∧
      (∀ k, k < (eventsLoop (okEmit ε recs) (okWrite ε) cp tot n cur).1.length →
        cur + sumLen ((eventsLoop (okEmit ε recs) (okWrite ε) cp tot n cur).1.take k) < tot) ∧
      (eventsLoop (okEmit ε recs) (okWrite ε) cp tot n cur).1.length ≤ tot - cur ∧
      (∀ l ∈ (eventsLoop (okEmit ε recs) (okWrite ε) cp tot n cur).1, 1 ≤ l.length) := by
  intro m
  induction m with
  | zero =>
    intro n cur hm
    have hstop : ¬ cur < tot := by omega
    rw [eventsLoop_stop _ _ _ _ _ _ hstop]
    simp [sumLen]
    omega
  | succ m ih =>
    intro n cur hm
    by_cases hcur : cur < tot
    · rw [eventsLoop_step (okEmit ε recs) (okWrite ε) cp tot n cur (recs n) hcur rfl rfl]
      have hlen : 1 ≤ (cp ++ recs n ++ [10]).length := by
        simp only [List.length_append, List.length_cons, List.length_nil]
        omega
      have hx := ih (n + 1) (cur + (cp ++ recs n ++ [10]).length) (by omega)
      refine ⟨hx.1, ?_, ?_, ?_, ?_, ?_⟩
      · intro h'; omega
      · simp only [sumLen_cons]
        have := hx.2.2.1
        omega
      · intro k hk
        cases k with
        | zero => simpa using hcur
        | succ k =>
          simp only [List.take_succ_cons, sumLen_cons]
          have hk' : k < (eventsLoop (okEmit ε recs) (okWrite ε) cp tot (n + 1)
              (cur + (cp ++ recs n ++ [10]).length)).1.length := by
            simp only [List.length_cons] at hk
            omega
          have := hx.2.2.2.1 k hk'
          omega
      · simp only [List.length_cons]
        have := hx.2.2.2.2.1
        omega
      · intro l hl
        simp only [List.mem_cons] at hl
        rcases hl with rfl | hl
        · exact hlen
        · exact hx.2.2.2.2.2 l hl
    · rw [eventsLoop_stop _ _ _ _ _ _ hcur]
      simp [sumLen]
      omega

lemma eventsLoop_err_spec (ε : Type) (emit : Nat → Except ε (List Nat))
    (write : List Nat → Except ε Unit) (cp : List Nat) (tot : Nat)
    (recs : Nat → List Nat) (e : ε) :
    ∀ n start cur,
      (∀ i, i < n → emit (start + i) = .ok (recs (start + i))) →
      (∀ i, i < n → write (chunkOf cp recs (start + i)) = .ok ()) →
      cur + sumLen ((List.range' start n).map (chunkOf cp recs)) < tot →
      (emit (start + n) = .error e ∨
        (emit (start + n) = .ok (recs (start + n)) ∧
          write (chunkOf cp recs (start + n)) = .error e)) →
      eventsLoop emit write cp tot start cur
        = ((List.range' start n).map (chunkOf cp recs), some e) := by
  intro n
  induction n with
  | zero =>
    intro start cur hemit hwrite hbudget hfail
    have hcur : cur < tot := by
      simpa [sumLen] using hbudget
    rcases hfail with hf | ⟨hok, hwf⟩
    · rw [eventsLoop_emit_err emit write cp tot start cur e hcur hf]
      simp [List.range']
    · rw [eventsLoop_write_err emit write cp tot start cur (recs (start + 0)) e hcur hok hwf]
      simp [List.range']
  | succ k ih =>
    intro start cur hemit hwrite hbudget hfail
    rw [List.range'_succ, List.map_cons, sumLen_cons] at hbudget
    have hchunklen : 1 ≤ (chunkOf cp recs start).length := by
      simp only [chunkOf, List.length_append, List.length_cons, List.length_nil]
      omega
    have hcur : cur < tot := by omega
    have he0 : emit start = .ok (recs start) := by
      have := hemit 0 (Nat.succ_pos k)
      simpa using this
    have hw0 : write (cp ++ recs start ++ [10]) = .ok () := by
      have := hwrite 0 (Nat.succ_pos k)
      simpa [chunkOf] using this
    rw [eventsLoop_step emit write cp tot start cur (recs start) hcur he0 hw0]
    have harg : ∀ i : Nat, start + (i + 1) = start + 1 + i := by intro i; omega
    have hrec := ih (start + 1) (cur + (cp ++ recs start ++ [10]).length)
      (fun i hi => by
        have := hemit (i + 1) (by omega)
        rw [harg i] at this
        exact this)
      (fun i hi => by
        have := hwrite (i + 1) (by omega)
        rw [harg i] at this
        exact this)
      (by
        have hsame : (chunkOf cp recs start).length = (cp ++ recs start ++ [10]).length := by
          simp [chunkOf]
        omega)
      (by
        have := hfail
        rw [harg k] at this
        exact this)
    rw [hrec]
    rw [List.range'_succ, List.map_cons]
    simp [chunkOf]

lemma eventsPayloadLoop_eval_one :
    eventsPayloadLoop (okEmit Unit fun _ => []) (okWrite Unit) [] 1 = ([[10]], none) := by
  rw [eventsPayloadLoop]
  rw [eventsLoop_step (okEmit Unit fun _ => []) (okWrite Unit) [] 1 0 0 [] (by omega) rfl rfl]
  rw [eventsLoop_stop _ _ _ _ _ _ (by decide)]
  rfl

/-- C4: under successful emits and writes, the emission loop of
eventsPayloadFromFields stops exactly when the cumulative count of bytes
written reaches or exceeds totSize: it ends without error, the total
written size is at least totSize, every proper prefix of the written
chunks is strictly below totSize (the loop never stops earlier), and
totSize = 0 writes no record at all. -/
theorem eventsPayloadLoop_byte_budget (ε : Type) (recs : Nat → List Nat)
    (cp : List Nat) (tot : Nat) :
    (eventsPayloadLoop (okEmit ε recs) (okWrite ε) cp tot).2 = none ∧
    tot ≤ sumLen (eventsPayloadLoop (okEmit ε recs) (okWrite ε) cp tot).1 ∧
    (∀ k, k < (eventsPayloadLoop (okEmit ε recs) (okWrite ε) cp tot).1.length →
      sumLen ((eventsPayloadLoop (okEmit ε recs) (okWrite ε) cp tot).1.take k) < tot) ∧
    (tot = 0 → (eventsPayloadLoop (okEmit ε recs) (okWrite ε) cp tot).1 = []) := by
  have h := eventsLoop_ok_spec ε recs cp tot tot 0 0 (by omega)
  rw [eventsPayloadLoop]
  refine ⟨h.1, by simpa using h.2.2.1, ?_, ?_⟩
  · intro k hk
    simpa using h.2.2.2.1 k hk
  · intro h0
    exact h.2.1 (by omega)

theorem eventsPayloadLoop_byte_budget_witness :
    1 ≤ sumLen (eventsPayloadLoop (okEmit Unit fun _ => []) (okWrite Unit) [] 1).1 ∧
    sumLen ((eventsPayloadLoop (okEmit Unit fun _ => []) (okWrite Unit) [] 1).1.take 0) < 1 :=
  ⟨(eventsPayloadLoop_byte_budget Unit (fun _ => []) [] 1).2.1,
   (eventsPayloadLoop_byte_budget Unit (fun _ => []) [] 1).2.2.1 0
     (by rw [eventsPayloadLoop_eval_one]; decide)⟩

/-- C9: the emission loop terminates with a bounded iteration count
under successful emits and writes: every written chunk contains at least
the appended newline byte, so the byte counter grows by at least one per
iteration and the number of emitted records is at most totSize, even when
every record renders to zero bytes. -/
theorem eventsPayloadLoop_terminates (ε : Type) (recs : Nat → List Nat)
    (cp : List Nat) (tot : Nat) :
    (∀ l ∈ (eventsPayloadLoop (okEmit ε recs) (okWrite ε) cp tot).1, 1 ≤ l.length) ∧
    (eventsPayloadLoop (okEmit ε recs) (okWrite ε) cp tot).1.length ≤ tot := by
  have h := eventsLoop_ok_spec ε recs cp tot tot 0 0 (by omega)
  rw [eventsPayloadLoop]
  exact ⟨h.2.2.2.2.2, by simpa using h.2.2.2.2.1⟩

theorem eventsPayloadLoop_terminates_witness : 1 ≤ ([10] : List Nat).length :=
  (eventsPayloadLoop_terminates Unit (fun _ => []) [] 1).1 [10]
    (by rw [eventsPayloadLoop_eval_one]; simp)

/-- C7: if, after n fully successful iterations that leave the
cumulative size below totSize, Emit fails, or Emit succeeds and the sink
Write fails, the loop returns that error immediately and verbatim:
exactly the n previously written chunks were written, the failed write is
not retried and no further record is emitted. -/
theorem eventsPayloadLoop_error_propagates (ε : Type) (emit : Nat → Except ε (List Nat))
    (write : List Nat → Except ε Unit) (cp : List Nat) (tot : Nat)
    (recs : Nat → List Nat) (e : ε) (n : Nat)
    (hemit : ∀ i, i < n → emit i = .ok (recs i))
    (hwrite : ∀ i, i < n → write (chunkOf cp recs i) = .ok ())
    (hbudget : sumLen ((List.range' 0 n).map (chunkOf cp recs)) < tot)
    (hfail : emit n = .error e ∨
      (emit n = .ok (recs n) ∧ write (chunkOf cp recs n) = .error e)) :
    eventsPayloadLoop emit write cp tot
      = ((List.range' 0 n).map (chunkOf cp recs), some e) := by
  rw [eventsPayloadLoop]
  exact eventsLoop_err_spec ε emit write cp tot recs e n 0 0
    (fun i hi => by simpa using hemit i hi)
    (fun i hi => by simpa using hwrite i hi)
    (by simpa using hbudget)
    (by simpa using hfail)

theorem eventsPayloadLoop_error_propagates_witness :
    eventsPayloadLoop (fun _ => (Except.error () : Except Unit (List Nat)))
      (fun _ => Except.ok ()) [] 1
      = ((List.range' 0 0).map (chunkOf [] fun _ => []), some ()) :=
  eventsPayloadLoop_error_propagates Unit (fun _ => Except.error ())
    (fun _ => Except.ok ()) [] 1 (fun _ => []) () 0
    (fun i hi => absurd hi (Nat.not_lt_zero i))
    (fun i hi => absurd hi (Nat.not_lt_zero i))
    (by decide)
    (Or.inl rfl)

/-- Decimal rendering of a natural number as ASCII digit bytes (most
significant digit first; zero renders as the single byte 48). -/
def renderNat (n : Nat) : List Nat :=
  if n = 0 then [48] else (Nat.digits 10 n).reverse.map fun d => 48 + d

lemma renderNat_ne_nil (n : Nat) : renderNat n ≠ [] := by
  rw [renderNat]
  split
  · simp
  · rename_i h
    simp [Nat.digits_ne_nil_iff_ne_zero, h]

lemma renderNat_digits (n : Nat) : ∀ b ∈ renderNat n, 48 ≤ b ∧ b ≤ 57 := by
  intro b hb
  rw [renderNat] at hb
  split at hb
  · simp at hb
    omega
  · rename_i h
    simp only [List.mem_map, List.mem_reverse] at hb
    rcases hb with ⟨d, hd, rfl⟩
    have := Nat.digits_lt_base (by norm_num) hd
    omega

/-- Value of a big-endian ASCII digit byte string. -/
def digitsVal (l : List Nat) : Nat := l.foldl (fun acc b => acc * 10 + (b - 48)) 0

lemma digitsVal_aux (ds : List Nat) :
    ∀ a : Nat, List.foldl (fun acc b => acc * 10 + (b - 48)) a
        (ds.reverse.map fun d => 48 + d)
      = a * 10 ^ ds.length + Nat.ofDigits 10 ds := by
  induction ds with
  | nil => intro a; simp
  | cons d ds ih =>
    intro a
    rw [List.reverse_cons, List.map_append, List.foldl_append, ih a]
    simp only [List.map_cons, List.map_nil, List.foldl_cons, List.foldl_nil,
      Nat.ofDigits_cons, List.length_cons]
    have h48 : 48 + d - 48 = d := by omega
    rw [h48]
    ring

lemma digitsVal_renderNat (n : Nat) : digitsVal (renderNat n) = n := by
  rw [renderNat]
  split
  · rename_i h
    subst h
    rfl
  · rw [digitsVal, digitsVal_aux]
    simp [Nat.ofDigits_digits]

lemma renderNat_inj (m n : Nat) (h : renderNat m = renderNat n) : m = n := by
  have := digitsVal_renderNat m
  rw [h, digitsVal_renderNat] at this
  omega

/-- Three-digit zero-padded rendering of a number below 1000, used for
the fractional part of fixed-point decimals. -/
def pad3 (n : Nat) : List Nat :=
  [48 + n / 100 % 10, 48 + n / 10 % 10, 48 + n % 10]

lemma pad3_digits (n : Nat) : ∀ b ∈ pad3 n, 48 ≤ b ∧ b ≤ 57 := by
  intro b hb
  simp only [pad3, List.mem_cons, List.not_mem_nil, or_false] at hb
  have h1 : n / 100 % 10 < 10 := Nat.mod_lt _ (by norm_num)
  have h2 : n / 10 % 10 < 10 := Nat.mod_lt _ (by norm_num)
  have h3 : n % 10 < 10 := Nat.mod_lt _ (by norm_num)
  rcases hb with rfl | rfl | rfl <;> omega

lemma digitsVal_pad3 (n : Nat) (h : n < 1000) : digitsVal (pad3 n) = n := by
  simp only [digitsVal, pad3, List.foldl_cons, List.foldl_nil]
  omega

/-- Fixed-point decimal rendering with three decimals: the integer m
denotes the value m / 1000; an optional minus sign (byte 45), the integer
part, a dot (byte 46) and three fractional digits. -/
def renderDec (m : Int) : List Nat :=
  (if m < 0 then [45] else []) ++ renderNat (m.natAbs / 1000) ++ [46]
    ++ pad3 (m.natAbs % 1000)

lemma renderDec_charset (m : Int) :
    ∀ b ∈ renderDec m, b = 45 ∨ b = 46 ∨ (48 ≤ b ∧ b ≤ 57) := by
  intro b hb
  simp only [renderDec, List.append_assoc, List.mem_append] at hb
  rcases hb with hb | hb | hb | hb
  · split at hb <;> simp at hb
    omega
  · exact Or.inr (Or.inr (renderNat_digits _ b hb))
  · simp at hb
    omega
  · exact Or.inr (Or.inr (pad3_digits _ b hb))

/-- Split a byte string on a separator byte (Go strings.Split). -/
def splitOnByte (sep : Nat) : List Nat → List (List Nat)
  | [] => [[]]
  | b :: rest =>
    if b = sep then [] :: splitOnByte sep rest
    else
      match splitOnByte sep rest with
      | [] => [[b]]
      | p :: ps => (b :: p) :: ps

lemma splitOnByte_no_sep (sep : Nat) :
    ∀ l, sep ∉ l → splitOnByte sep l = [l] := by
  intro l
  induction l with
  | nil => intro _; rfl
  | cons b rest ih =>
    intro h
    have hb : ¬ b = sep := fun hb => h (hb ▸ List.mem_cons_self b rest)
    have hrest : sep ∉ rest := fun hr => h (List.mem_cons_of_mem b hr)
    rw [splitOnByte, if_neg hb, ih hrest]

lemma splitOnByte_append (sep : Nat) :
    ∀ as bs, sep ∉ as → splitOnByte sep (as ++ sep :: bs) = as :: splitOnByte sep bs := by
  intro as
  induction as with
  | nil =>
    intro bs _
    simp only [List.nil_append]
    rw [splitOnByte, if_pos rfl]
  | cons a as' ih =>
    intro bs h
    have ha : ¬ a = sep := fun hb => h (hb ▸ List.mem_cons_self a as')
    have has : sep ∉ as' := fun hr => h (List.mem_cons_of_mem a hr)
    rw [List.cons_append, splitOnByte, if_neg ha, ih bs has]

/-- Whether a byte is an ASCII decimal digit. -/
def isDigitByte (b : Nat) : Bool := decide (48 ≤ b ∧ b ≤ 57)

/-- Whether a byte is ASCII whitespace. -/
def isWsByte (b : Nat) : Bool :=
  decide (b = 32 ∨ b = 9 ∨ b = 10 ∨ b = 13 ∨ b = 11 ∨ b = 12)

/-- Whether a byte string parses as a decimal number: an optional minus
sign, a nonempty run of digits, optionally followed by a dot and a
nonempty run of digits. -/
def isNumericBytes (l : List Nat) : Bool :=
  let l1 := if l.head? = some 45 then l.tail else l
  match splitOnByte 46 l1 with
  | [ds] => !ds.isEmpty && ds.all isDigitByte
  | [as, ds] => !as.isEmpty && !ds.isEmpty && as.all isDigitByte && ds.all isDigitByte
  | _ => false

/-- Numeric value of an unsigned decimal byte string. -/
def numValuePos (l : List Nat) : ℚ :=
  match splitOnByte 46 l with
  | [ds] => (digitsVal ds : ℚ)
  | [as, ds] => (digitsVal as : ℚ) + (digitsVal ds : ℚ) / 10 ^ ds.length
  | _ => 0

/-- Numeric value of a decimal byte string with optional minus sign. -/
def numValue (l : List Nat) : ℚ :=
  if l.head? = some 45 then - numValuePos l.tail else numValuePos l

lemma notMem_renderNat_46 (n : Nat) : 46 ∉ renderNat n := by
  intro h
  have := renderNat_digits n 46 h
  omega

lemma notMem_pad3_46 (n : Nat) : 46 ∉ pad3 n := by
  intro h
  have := pad3_digits n 46 h
  omega

lemma splitOnByte_body (q r : Nat) :
    splitOnByte 46 (renderNat q ++ [46] ++ pad3 r) = [renderNat q, pad3 r] := by
  rw [List.append_assoc, List.singleton_append,
    splitOnByte_append 46 (renderNat q) (pad3 r) (notMem_renderNat_46 q),
    splitOnByte_no_sep 46 (pad3 r) (notMem_pad3_46 r)]

lemma numValuePos_body (q r : Nat) (hr : r < 1000) :
    numValuePos (renderNat q ++ [46] ++ pad3 r) = (q : ℚ) + (r : ℚ) / 1000 := by
  rw [numValuePos, splitOnByte_body]
  have hlen : (pad3 r).length = 3 := rfl
  simp only [digitsVal_renderNat, digitsVal_pad3 r hr, hlen]
  norm_num

lemma renderNat_head_digit (n : Nat) :
    ∃ b tl, renderNat n = b :: tl ∧ 48 ≤ b ∧ b ≤ 57 := by
  rcases List.exists_cons_of_ne_nil (renderNat_ne_nil n) with ⟨b, tl, hb⟩
  refine ⟨b, tl, hb, ?_⟩
  exact renderNat_digits n b (by rw [hb]; exact List.mem_cons_self b tl)

lemma numValue_renderDec (m : Int) : numValue (renderDec m) = (m : ℚ) / 1000 := by
  have hmod : m.natAbs % 1000 < 1000 := Nat.mod_lt _ (by norm_num)
  have habs : ((m.natAbs : ℚ))
      = 1000 * ((m.natAbs / 1000 : ℕ) : ℚ) + ((m.natAbs % 1000 : ℕ) : ℚ) := by
    exact_mod_cast (Nat.div_add_mod m.natAbs 1000).symm
  have hbody : numValuePos (renderNat (m.natAbs / 1000) ++ [46] ++ pad3 (m.natAbs % 1000))
      = (m.natAbs : ℚ) / 1000 := by
    rw [numValuePos_body _ _ hmod, habs]
    field_simp
    ring
  by_cases hm : m < 0
  · have hlist : renderDec m
        = 45 :: (renderNat (m.natAbs / 1000) ++ [46] ++ pad3 (m.natAbs % 1000)) := by
      rw [renderDec, if_pos hm]
      rfl
    rw [hlist, numValue]
    simp only [List.head?_cons, List.tail_cons, if_true]
    rw [hbody]
    have hcast : ((m.natAbs : ℚ)) = -(m : ℚ) := by
      have h1 : (m.natAbs : ℤ) = -m := Int.ofNat_natAbs_of_nonpos (le_of_lt hm)
      calc (m.natAbs : ℚ) = ((m.natAbs : ℤ) : ℚ) := (Int.cast_natCast m.natAbs).symm
        _ = ((-m : ℤ) : ℚ) := by rw [h1]
        _ = -(m : ℚ) := by push_cast; ring
    rw [hcast]
    ring
  · have hlist : renderDec m
        = renderNat (m.natAbs / 1000) ++ [46] ++ pad3 (m.natAbs % 1000) := by
      rw [renderDec, if_neg hm]
      rfl
    rcases renderNat_head_digit (m.natAbs / 1000) with ⟨b, tl, hb, hb1, hb2⟩
    rw [hlist, numValue]
    have hhead : (renderNat (m.natAbs / 1000) ++ [46] ++ pad3 (m.natAbs % 1000)).head?
        = some b := by
      rw [hb]
      rfl
    rw [hhead]
    rw [if_neg (by intro hc; injection hc with hc; omega), hbody]
    have hcast : ((m.natAbs : ℚ)) = (m : ℚ) := by
      have h1 : (m.natAbs : ℤ) = m := Int.natAbs_of_nonneg (not_lt.mp hm)
      calc (m.natAbs : ℚ) = ((m.natAbs : ℤ) : ℚ) := (Int.cast_natCast m.natAbs).symm
        _ = (m : ℚ) := by rw [h1]
    rw [hcast]

lemma renderDec_no_comma (m : Int) : 44 ∉ renderDec m := by
  intro h
  rcases renderDec_charset m 44 h with h' | h' | h' <;> omega

lemma renderDec_no_ws (m : Int) : ∀ b ∈ renderDec m, isWsByte b = false := by
  intro b hb
  have h' := renderDec_charset m b hb
  simp only [isWsByte, decide_eq_false_iff_not]
  rcases h' with h' | h' | h' <;> omega

lemma renderDec_neg_list (m : Int) (hm : m < 0) :
    renderDec m = 45 :: (renderNat (m.natAbs / 1000) ++ [46] ++ pad3 (m.natAbs % 1000)) := by
  rw [renderDec, if_pos hm]
  rfl

lemma renderDec_nonneg_list (m : Int) (hm : ¬ m < 0) :
    renderDec m = renderNat (m.natAbs / 1000) ++ [46] ++ pad3 (m.natAbs % 1000) := by
  rw [renderDec, if_neg hm]
  rfl

lemma isNumericBytes_renderDec (m : Int) : isNumericBytes (renderDec m) = true := by
  have hmod : m.natAbs % 1000 < 1000 := Nat.mod_lt _ (by norm_num)
  have hdigits_rn : (renderNat (m.natAbs / 1000)).all isDigitByte = true := by
    rw [List.all_eq_true]
    intro b hb
    have := renderNat_digits _ b hb
    simp only [isDigitByte, decide_eq_true_eq]
    omega
  have hdigits_p3 : (pad3 (m.natAbs % 1000)).all isDigitByte = true := by
    rw [List.all_eq_true]
    intro b hb
    have := pad3_digits _ b hb
    simp only [isDigitByte, decide_eq_true_eq]
    omega
  have hempty_rn : (renderNat (m.natAbs / 1000)).isEmpty = false := by
    rw [List.isEmpty_eq_false]
    exact renderNat_ne_nil _
  have hempty_p3 : (pad3 (m.natAbs % 1000)).isEmpty = false := rfl
  have hsplit := splitOnByte_body (m.natAbs / 1000) (m.natAbs % 1000)
  by_cases hm : m < 0
  · rw [renderDec_neg_list m hm, isNumericBytes]
    simp only [List.head?_cons, List.tail_cons, if_true]
    rw [hsplit]
    simp [hdigits_rn, hdigits_p3, hempty_rn, hempty_p3]
  · rcases renderNat_head_digit (m.natAbs / 1000) with ⟨b, tl, hb, hb1, hb2⟩
    rw [renderDec_nonneg_list m hm, isNumericBytes]
    have hhead : (renderNat (m.natAbs / 1000) ++ [46] ++ pad3 (m.natAbs % 1000)).head?
        = some b := by
      rw [hb]
      rfl
    rw [hhead]
    rw [if_neg (by intro hc; injection hc with hc; omega)]
    rw [hsplit]
    simp [hdigits_rn, hdigits_p3, hempty_rn, hempty_p3]

lemma numValue_renderDec_bounds (m : Int) (k : ℚ) (h1 : -(1000 * k) ≤ (m : ℚ))
    (h2 : (m : ℚ) ≤ 1000 * k) :
    -k ≤ numValue (renderDec m) ∧ numValue (renderDec m) ≤ k := by
  rw [numValue_renderDec]
  constructor
  · rw [le_div_iff₀ (by norm_num : (0:ℚ) < 1000)]
    linarith
  · rw [div_le_iff₀ (by norm_num : (0:ℚ) < 1000)]
    linarith

/-- Modelled from the spec: the rendering of a geo_point value (spec
section 4.2; the genlib synthesizer is not in the given sources, only its
tests are): latitude and longitude in thousandths of a degree, rendered
as fixed-point decimals joined by a comma (byte 44). -/
def geoBytes (lat long : Int) : List Nat := renderDec lat ++ 44 :: renderDec long

lemma splitOnByte_geoBytes (lat long : Int) :
    splitOnByte 44 (geoBytes lat long) = [renderDec lat, renderDec long] := by
  rw [geoBytes, splitOnByte_append 44 _ _ (renderDec_no_comma lat),
    splitOnByte_no_sep 44 _ (renderDec_no_comma long)]

lemma renderDec_inj (m n : Int) (h : renderDec m = renderDec n) : m = n := by
  have h1 := numValue_renderDec m
  rw [h, numValue_renderDec] at h1
  have h2 : (m : ℚ) = n := by
    field_simp at h1
    exact_mod_cast h1.symm
  exact_mod_cast h2

/-- Modelled from the spec: the rendering of an IP value for the
cardinality pool: a dotted-decimal IPv4 string whose first two octets
encode the pool index (spec sections 4.2 and 6). -/
def ipBytes (idx : Nat) : List Nat :=
  renderNat (idx % 256) ++ [46] ++ renderNat (idx / 256 % 256) ++ [46] ++ [48] ++ [46] ++ [49]

lemma splitOnByte_ipBytes (idx : Nat) :
    splitOnByte 46 (ipBytes idx)
      = [renderNat (idx % 256), renderNat (idx / 256 % 256), [48], [49]] := by
  have hshape : ipBytes idx
      = renderNat (idx % 256)
          ++ 46 :: (renderNat (idx / 256 % 256) ++ 46 :: ([48] ++ 46 :: [49])) := by
    simp [ipBytes]
  rw [hshape, splitOnByte_append 46 _ _ (notMem_renderNat_46 _),
    splitOnByte_append 46 _ _ (notMem_renderNat_46 _),
    splitOnByte_append 46 [48] [49] (by decide),
    splitOnByte_no_sep 46 [49] (by decide)]

lemma ipBytes_inj (i j : Nat) (hi : i < 65536) (hj : j < 65536)
    (h : ipBytes i = ipBytes j) : i = j := by
  have h1 := splitOnByte_ipBytes i
  rw [h, splitOnByte_ipBytes j] at h1
  injection h1 with ha h1
  injection h1 with hb _
  have ha' := renderNat_inj _ _ ha
  have hb' := renderNat_inj _ _ hb
  omega


/-- Modelled from the spec: the mutable generation state (spec section 3;
the genlib generator is not in the given sources, only its tests are): a
random source, modelled as a stream of naturals read at a cursor
position, and one cardinality counter per field name. -/
structure GenState where
  rng : Nat → Nat
  pos : Nat
  counters : String → Nat

/-- Modelled from the spec: NewGenState creates a fresh state: cursor at
zero and every cardinality counter at zero. -/
def NewGenState (rng : Nat → Nat) : GenState := ⟨rng, 0, fun _ => 0⟩

/-- Advance the random cursor by k draws. -/
def advance (k : Nat) (st : GenState) : GenState := ⟨st.rng, st.pos + k, st.counters⟩

/-- Increment the cardinality counter of one field. -/
def bumpCounter (name : String) (st : GenState) : GenState :=
  ⟨st.rng, st.pos, fun s => if s = name then st.counters s + 1 else st.counters s⟩

/-- Modelled from the spec: the static value in effect for a field: the
configured static value override takes precedence, then the descriptor's
own static value (spec sections 3, 4.2 and 6). -/
def staticValueOf (fld : Field) (cfg : Option FieldConfig) : Option EmittedValue :=
  match cfg with
  | some c =>
    match c.value with
    | some v => some v
    | none => fld.value
  | none => fld.value

/-- The configured cardinality, when a configuration is present. -/
def cardinalityOf (cfg : Option FieldConfig) : Option Nat :=
  cfg.bind FieldConfig.cardinality

/-- The configured range, when a configuration is present. -/
def rangeOf (cfg : Option FieldConfig) : Option Nat :=
  cfg.bind FieldConfig.range

/-- The configured fuzziness, when a configuration is present. -/
def fuzzinessOf (cfg : Option FieldConfig) : Option Nat :=
  cfg.bind FieldConfig.fuzziness

/-- Modelled from the spec: the stable cardinality pool mapping (spec
section 4.2): each pool index below 1000 maps deterministically and
injectively to a value in the field type's normal generation domain, so
that repeated indices reproduce the same value and the pool holds as many
distinct values as indices. -/
def poolValue (ty : FieldType) (idx : Nat) : EmittedValue :=
  match ty with
  | FieldType.keyword => EmittedValue.bytes (renderNat idx)
  | FieldType.constantKeyword => EmittedValue.bytes (renderNat idx)
  | FieldType.bool => EmittedValue.boolean (idx % 2 == 0)
  | FieldType.integer => EmittedValue.num (Int.ofNat idx)
  | FieldType.long => EmittedValue.num (Int.ofNat idx)
  | FieldType.unsignedLong => EmittedValue.num (Int.ofNat idx)
  | FieldType.float => EmittedValue.num (Int.ofNat idx)
  | FieldType.double => EmittedValue.num (Int.ofNat idx)
  | FieldType.halfFloat => EmittedValue.num (Int.ofNat idx)
  | FieldType.scaledFloat => EmittedValue.num (Int.ofNat idx)
  | FieldType.ip => EmittedValue.bytes (ipBytes idx)
  | FieldType.geoPoint => EmittedValue.bytes (geoBytes (Int.ofNat idx) 0)
  | FieldType.date => EmittedValue.bytes (renderNat (1647345675 + idx))

/-- Modelled from the spec: one fresh draw per type family (spec section
4.2): booleans draw uniformly; geo points draw a latitude within 90000
thousandths of a degree and a longitude within 180000 thousandths of zero;
numeric types draw within the configured range and add a bounded symmetric
fuzziness perturbation; dates draw within a bounded span of a fixed
anchor; keywords and IPs render a draw into their domain. -/
def freshDraw (fld : Field) (cfg : Option FieldConfig) (st : GenState) :
    EmittedValue × GenState :=
  match fld.type with
  | FieldType.bool => (EmittedValue.boolean (st.rng st.pos % 2 == 0), advance 1 st)
  | FieldType.geoPoint =>
    (EmittedValue.bytes (geoBytes
        ((st.rng st.pos % 180001 : Nat) - (90000 : Int))
        ((st.rng (st.pos + 1) % 360001 : Nat) - (180000 : Int))),
      advance 2 st)
  | FieldType.keyword => (EmittedValue.bytes (renderNat (st.rng st.pos)), advance 1 st)
  | FieldType.constantKeyword =>
    (EmittedValue.bytes (renderNat (st.rng st.pos)), advance 1 st)
  | FieldType.ip => (EmittedValue.bytes (ipBytes (st.rng st.pos % 65536)), advance 1 st)
  | FieldType.date =>
    (EmittedValue.bytes (renderNat (1647345675 + st.rng st.pos % 3600)), advance 1 st)
  | _ =>
    (EmittedValue.num
        ((st.rng st.pos % ((rangeOf cfg).getD 1000 + 1) : Nat)
          + ((st.rng (st.pos + 1) % (2 * (fuzzinessOf cfg).getD 0 + 1) : Nat)
              - ((fuzzinessOf cfg).getD 0 : Int))),
      advance 2 st)

/-- Modelled from the spec: per-field value synthesis (spec section 4.2):
a static value is emitted as is, type-coerced, with no state mutation;
otherwise a configured cardinality C in (0, 1000] selects the pool entry
at the field's counter modulo the pool size 1000 / C and bumps the
counter; otherwise a fresh draw is taken. -/
def emitField (fld : Field) (cfg : Option FieldConfig) (st : GenState) :
    EmittedValue × GenState :=
  match staticValueOf fld cfg with
  | some v => (v, st)
  | none =>
    match cardinalityOf cfg with
    | some c =>
      if 0 < c ∧ c ≤ 1000 then
        (poolValue fld.type (st.counters fld.name % (1000 / c)), bumpCounter fld.name st)
      else freshDraw fld cfg st
    | none => freshDraw fld cfg st

/-- The values a field takes over n successive emissions, threading the
generation state through every emission. -/
def emitSeq (fld : Field) (cfg : Option FieldConfig) : GenState → Nat → List EmittedValue
  | _, 0 => []
  | st, n + 1 => (emitField fld cfg st).1 :: emitSeq fld cfg (emitField fld cfg st).2 n

/-- Number of distinct values in an emission sequence. -/
def distinctCount (l : List EmittedValue) : Nat := l.dedup.length

/-- C3: a field whose descriptor carries a static value, or whose
configuration sets a static value override, emits exactly that value on
every emission with unchanged state, independently of the declared type
and of any cardinality, fuzziness or range configuration. -/
theorem emitField_static_override (fld : Field) (cfg : Option FieldConfig)
    (st : GenState) (v : EmittedValue) (n : Nat)
    (h : staticValueOf fld cfg = some v) :
    emitField fld cfg st = (v, st) ∧ emitSeq fld cfg st n = List.replicate n v := by
  have h1 : emitField fld cfg st = (v, st) := by
    simp [emitField, h]
  refine ⟨h1, ?_⟩
  induction n with
  | zero => rfl
  | succ k ih =>
    simp only [emitSeq, h1, List.replicate_succ]
    rw [ih]

theorem emitField_static_override_witness :
    emitField ⟨"alpha", FieldType.keyword, none⟩
        (some ⟨"alpha", some 10, some 5, some 100, some (EmittedValue.bytes [98])⟩)
        (NewGenState fun _ => 0)
      = (EmittedValue.bytes [98], NewGenState fun _ => 0) ∧
    emitSeq ⟨"alpha", FieldType.keyword, none⟩
        (some ⟨"alpha", some 10, some 5, some 100, some (EmittedValue.bytes [98])⟩)
        (NewGenState fun _ => 0) 2
      = List.replicate 2 (EmittedValue.bytes [98]) :=
  emitField_static_override ⟨"alpha", FieldType.keyword, none⟩
    (some ⟨"alpha", some 10, some 5, some 100, some (EmittedValue.bytes [98])⟩)
    (NewGenState fun _ => 0) (EmittedValue.bytes [98]) 2 rfl


lemma geoBytes_wellformed_parts (lat long : Int)
    (hlat1 : -90000 ≤ lat) (hlat2 : lat ≤ 90000)
    (hlong1 : -180000 ≤ long) (hlong2 : long ≤ 180000) :
    splitOnByte 44 (geoBytes lat long) = [renderDec lat, renderDec long] ∧
    (∀ b ∈ renderDec lat, isWsByte b = false) ∧
    (∀ b ∈ renderDec long, isWsByte b = false) ∧
    isNumericBytes (renderDec lat) = true ∧
    isNumericBytes (renderDec long) = true ∧
    -90 ≤ numValue (renderDec lat) ∧ numValue (renderDec lat) ≤ 90 ∧
    -180 ≤ numValue (renderDec long) ∧ numValue (renderDec long) ≤ 180 := by
  have hcast : ∀ a b : Int, a ≤ b → (a : ℚ) ≤ (b : ℚ) := fun a b h => Int.cast_le.mpr h
  have hl1 : -(1000 * (90:ℚ)) ≤ (lat : ℚ) := by
    have h0 := hcast _ _ hlat1
    push_cast at h0
    linarith
  have hl2 : (lat : ℚ) ≤ 1000 * (90:ℚ) := by
    have h0 := hcast _ _ hlat2
    push_cast at h0
    linarith
  have hg1 : -(1000 * (180:ℚ)) ≤ (long : ℚ) := by
    have h0 := hcast _ _ hlong1
    push_cast at h0
    linarith
  have hg2 : (long : ℚ) ≤ 1000 * (180:ℚ) := by
    have h0 := hcast _ _ hlong2
    push_cast at h0
    linarith
  have hlatb := numValue_renderDec_bounds lat 90 hl1 hl2
  have hlongb := numValue_renderDec_bounds long 180 hg1 hg2
  exact ⟨splitOnByte_geoBytes lat long, renderDec_no_ws lat, renderDec_no_ws long,
    isNumericBytes_renderDec lat, isNumericBytes_renderDec long,
    hlatb.1, hlatb.2, hlongb.1, hlongb.2⟩

/-- C6: every value emitted for a geo_point field that has no static
value is a byte string of the form latitude, comma, longitude: splitting
on the comma byte yields exactly two substrings, neither contains any
whitespace byte, both parse as decimal numbers, the latitude lies between
-90 and 90 and the longitude between -180 and 180. -/
theorem emitField_geoPoint_wellformed (fld : Field) (cfg : Option FieldConfig)
    (st : GenState) (hty : fld.type = FieldType.geoPoint)
    (hstatic : staticValueOf fld cfg = none) :
    ∃ lat long : Int,
      (emitField fld cfg st).1 = EmittedValue.bytes (geoBytes lat long) ∧
      splitOnByte 44 (geoBytes lat long) = [renderDec lat, renderDec long] ∧
      (∀ b ∈ renderDec lat, isWsByte b = false) ∧
      (∀ b ∈ renderDec long, isWsByte b = false) ∧
      isNumericBytes (renderDec lat) = true ∧
      isNumericBytes (renderDec long) = true ∧
      -90 ≤ numValue (renderDec lat) ∧ numValue (renderDec lat) ≤ 90 ∧
      -180 ≤ numValue (renderDec long) ∧ numValue (renderDec long) ≤ 180 := by
  have hfresh : ∃ lat long : Int,
      (freshDraw fld cfg st).1 = EmittedValue.bytes (geoBytes lat long) ∧
      -90000 ≤ lat ∧ lat ≤ 90000 ∧ -180000 ≤ long ∧ long ≤ 180000 := by
    refine ⟨(st.rng st.pos % 180001 : Nat) - (90000 : Int),
      (st.rng (st.pos + 1) % 360001 : Nat) - (180000 : Int), ?_, ?_, ?_, ?_, ?_⟩
    · rw [freshDraw, hty]
    · have := Nat.mod_lt (st.rng st.pos) (show 0 < 180001 by norm_num)
      omega
    · have := Nat.mod_lt (st.rng st.pos) (show 0 < 180001 by norm_num)
      omega
    · have := Nat.mod_lt (st.rng (st.pos + 1)) (show 0 < 360001 by norm_num)
      omega
    · have := Nat.mod_lt (st.rng (st.pos + 1)) (show 0 < 360001 by norm_num)
      omega
  cases hc : cardinalityOf cfg with
  | none =>
    rcases hfresh with ⟨lat, long, hval, h1, h2, h3, h4⟩
    refine ⟨lat, long, ?_, geoBytes_wellformed_parts lat long h1 h2 h3 h4⟩
    simp only [emitField, hstatic, hc]
    exact hval
  | some c =>
    by_cases hrange : 0 < c ∧ c ≤ 1000
    · have hP : 0 < 1000 / c := Nat.div_pos (by omega) (by omega)
      have hidx : st.counters fld.name % (1000 / c) < 1000 / c :=
        Nat.mod_lt _ hP
      have hle : 1000 / c ≤ 1000 := Nat.div_le_self 1000 c
      refine ⟨((st.counters fld.name % (1000 / c) : Nat) : Int), 0, ?_, ?_⟩
      · simp only [emitField, hstatic, hc, if_pos hrange]
        rw [hty]
        rfl
      · exact geoBytes_wellformed_parts _ _ (by omega) (by omega) (by omega) (by omega)
    · rcases hfresh with ⟨lat, long, hval, h1, h2, h3, h4⟩
      refine ⟨lat, long, ?_, geoBytes_wellformed_parts lat long h1 h2 h3 h4⟩
      simp only [emitField, hstatic, hc, if_neg hrange]
      exact hval

theorem emitField_geoPoint_wellformed_witness :
    ∃ lat long : Int,
      (emitField ⟨"alpha", FieldType.geoPoint, none⟩ none (NewGenState fun _ => 7)).1
        = EmittedValue.bytes (geoBytes lat long) ∧
      splitOnByte 44 (geoBytes lat long) = [renderDec lat, renderDec long] ∧
      (∀ b ∈ renderDec lat, isWsByte b = false) ∧
      (∀ b ∈ renderDec long, isWsByte b = false) ∧
      isNumericBytes (renderDec lat) = true ∧
      isNumericBytes (renderDec long) = true ∧
      -90 ≤ numValue (renderDec lat) ∧ numValue (renderDec lat) ≤ 90 ∧
      -180 ≤ numValue (renderDec long) ∧ numValue (renderDec long) ≤ 180 :=
  emitField_geoPoint_wellformed ⟨"alpha", FieldType.geoPoint, none⟩ none
    (NewGenState fun _ => 7) rfl rfl


lemma list_toFinset_map (l : List Nat) (f : Nat → EmittedValue) :
    (l.map f).toFinset = l.toFinset.image f := by
  ext x
  simp

lemma list_toFinset_range (n : Nat) : (List.range n).toFinset = Finset.range n := by
  ext x
  simp

lemma image_mod_range (P N : Nat) (hP : 0 < P) (hPN : P ≤ N) :
    (Finset.range N).image (fun i => i % P) = Finset.range P := by
  ext x
  simp only [Finset.mem_image, Finset.mem_range]
  constructor
  · rintro ⟨i, _, rfl⟩
    exact Nat.mod_lt i hP
  · intro hx
    exact ⟨x, lt_of_lt_of_le hx hPN, Nat.mod_eq_of_lt hx⟩

lemma distinct_map_mod (P N : Nat) (hP : 0 < P) (hPN : P ≤ N) (f : Nat → EmittedValue)
    (hinj : ∀ i < P, ∀ j < P, f i = f j → i = j) :
    distinctCount ((List.range N).map fun i => f (i % P)) = P := by
  rw [distinctCount, ← List.card_toFinset, list_toFinset_map, list_toFinset_range]
  have hcomp : (Finset.range N).image (fun i => f (i % P))
      = ((Finset.range N).image fun i => i % P).image f := by
    rw [Finset.image_image]
    rfl
  rw [hcomp, image_mod_range P N hP hPN]
  have hinj' : Set.InjOn f (Finset.range P) := by
    intro i hi j hj hf
    simp only [Finset.coe_range, Set.mem_Iio] at hi hj
    exact hinj i hi j hj hf
  rw [Finset.card_image_of_injOn hinj', Finset.card_range]

lemma poolValue_injOn (ty : FieldType) (hty : ty ≠ FieldType.bool) :
    ∀ i < 1000, ∀ j < 1000, poolValue ty i = poolValue ty j → i = j := by
  intro i hi j hj h
  cases ty with
  | bool => exact absurd rfl hty
  | keyword =>
    simp only [poolValue, EmittedValue.bytes.injEq] at h
    exact renderNat_inj _ _ h
  | constantKeyword =>
    simp only [poolValue, EmittedValue.bytes.injEq] at h
    exact renderNat_inj _ _ h
  | integer =>
    simp only [poolValue, EmittedValue.num.injEq] at h
    exact Int.ofNat.inj h
  | long =>
    simp only [poolValue, EmittedValue.num.injEq] at h
    exact Int.ofNat.inj h
  | unsignedLong =>
    simp only [poolValue, EmittedValue.num.injEq] at h
    exact Int.ofNat.inj h
  | float =>
    simp only [poolValue, EmittedValue.num.injEq] at h
    exact Int.ofNat.inj h
  | double =>
    simp only [poolValue, EmittedValue.num.injEq] at h
    exact Int.ofNat.inj h
  | halfFloat =>
    simp only [poolValue, EmittedValue.num.injEq] at h
    exact Int.ofNat.inj h
  | scaledFloat =>
    simp only [poolValue, EmittedValue.num.injEq] at h
    exact Int.ofNat.inj h
  | ip =>
    simp only [poolValue, EmittedValue.bytes.injEq] at h
    exact ipBytes_inj i j (by omega) (by omega) h
  | geoPoint =>
    simp only [poolValue, EmittedValue.bytes.injEq] at h
    have h1 := splitOnByte_geoBytes (Int.ofNat i) 0
    rw [h, splitOnByte_geoBytes] at h1
    injection h1 with hlat _
    have h2 := renderDec_inj _ _ hlat
    have h3 := Int.ofNat.inj h2
    omega
  | date =>
    simp only [poolValue, EmittedValue.bytes.injEq] at h
    have := renderNat_inj _ _ h
    omega

lemma emitSeq_cardinality_closed (fld : Field) (cfg : Option FieldConfig) (c : Nat)
    (hstatic : staticValueOf fld cfg = none)
    (hcard : cardinalityOf cfg = some c) (hc : 0 < c ∧ c ≤ 1000) :
    ∀ (N : Nat) (st : GenState),
      emitSeq fld cfg st N = (List.range N).map
        fun i => poolValue fld.type ((st.counters fld.name + i) % (1000 / c)) := by
  intro N
  induction N with
  | zero => intro st; rfl
  | succ n ih =>
    intro st
    have hstep : emitField fld cfg st
        = (poolValue fld.type (st.counters fld.name % (1000 / c)),
           bumpCounter fld.name st) := by
      simp only [emitField, hstatic, hcard, if_pos hc]
    simp only [emitSeq, hstep]
    rw [ih (bumpCounter fld.name st)]
    have hbump : (bumpCounter fld.name st).counters fld.name
        = st.counters fld.name + 1 := by
      simp [bumpCounter]
    simp only [hbump]
    rw [List.range_succ_eq_map, List.map_cons, List.map_map]
    have htail : List.map
          (fun i => poolValue fld.type ((st.counters fld.name + 1 + i) % (1000 / c)))
          (List.range n)
        = List.map
            ((fun i => poolValue fld.type ((st.counters fld.name + i) % (1000 / c)))
              ∘ Nat.succ)
            (List.range n) := by
      apply List.map_congr_left
      intro i hi
      simp only [Function.comp_apply]
      have harg : st.counters fld.name + 1 + i = st.counters fld.name + (i + 1) := by
        omega
      rw [harg]
    rw [htail]
    simp

lemma distinctCount_le_two (l : List EmittedValue) (a b : EmittedValue)
    (h : ∀ x ∈ l, x = a ∨ x = b) : distinctCount l ≤ 2 := by
  rw [distinctCount, ← List.card_toFinset]
  have hsub : l.toFinset ⊆ {a, b} := by
    intro x hx
    rw [List.mem_toFinset] at hx
    rcases h x hx with rfl | rfl
    · simp
    · simp
  calc l.toFinset.card ≤ ({a, b} : Finset EmittedValue).card := Finset.card_le_card hsub
    _ ≤ 2 := Finset.card_insert_le a {b}

lemma poolValue_bool_cases (idx : Nat) :
    poolValue FieldType.bool idx = EmittedValue.boolean true ∨
    poolValue FieldType.bool idx = EmittedValue.boolean false := by
  simp only [poolValue]
  cases idx % 2 == 0
  · exact Or.inr rfl
  · exact Or.inl rfl

/-- C1, counterexample to the claim at its full breadth: a boolean field
configured with cardinality 10 cannot take 1000 / 10 = 100 distinct
values over 16384 emissions; its domain has only the two values true and
false, so the cardinality law fails for the boolean type. -/
theorem emitSeq_cardinality_law_counterexample :
    distinctCount (emitSeq ⟨"alpha", FieldType.bool, none⟩
        (some ⟨"alpha", some 10, none, some 10000, none⟩)
        (NewGenState fun _ => 0) 16384)
      ≠ 1000 / 10 := by
  have hclosed := emitSeq_cardinality_closed ⟨"alpha", FieldType.bool, none⟩
    (some ⟨"alpha", some 10, none, some 10000, none⟩) 10 rfl rfl (by norm_num)
    16384 (NewGenState fun _ => 0)
  rw [hclosed]
  refine Nat.ne_of_lt (lt_of_le_of_lt
    (distinctCount_le_two _ (EmittedValue.boolean true) (EmittedValue.boolean false) ?_)
    (by norm_num))
  intro x hx
  rw [List.mem_map] at hx
  rcases hx with ⟨i, -, rfl⟩
  exact poolValue_bool_cases _

/-- C1, amended: for a field of any supported type other than bool,
configured with cardinality C taken from 1000, 100 or 10, emitting 16384
values with one generator and one fresh GenState yields exactly 1000 / C
distinct values for that field.  The boolean type is excluded: its
generation domain holds only two values, so no implementation can meet
the law there (see the counterexample). -/
theorem emitSeq_cardinality_law (stream : Nat → Nat) (fname : String)
    (ty : FieldType) (fz rg : Option Nat) (c : Nat)
    (hty : ty ≠ FieldType.bool) (hc : c ∈ [1000, 100, 10]) :
    distinctCount (emitSeq ⟨fname, ty, none⟩
        (some ⟨fname, some c, fz, rg, none⟩) (NewGenState stream) 16384)
      = 1000 / c := by
  have hc' : c = 1000 ∨ c = 100 ∨ c = 10 := by simpa using hc
  have hcr : 0 < c ∧ c ≤ 1000 := by rcases hc' with rfl | rfl | rfl <;> norm_num
  have hclosed := emitSeq_cardinality_closed ⟨fname, ty, none⟩
    (some ⟨fname, some c, fz, rg, none⟩) c rfl rfl hcr 16384 (NewGenState stream)
  rw [hclosed]
  simp only [NewGenState, Nat.zero_add]
  have hP : 0 < 1000 / c := Nat.div_pos (by omega) (by omega)
  have hle : 1000 / c ≤ 1000 := Nat.div_le_self 1000 c
  apply distinct_map_mod _ _ hP (by omega)
  intro i hi j hj hf
  exact poolValue_injOn ty hty i (by omega) j (by omega) hf

theorem emitSeq_cardinality_law_witness :
    distinctCount (emitSeq ⟨"alpha", FieldType.keyword, none⟩
        (some ⟨"alpha", some 1000, none, some 10000, none⟩)
        (NewGenState fun _ => 0) 16384)
      = 1000 / 1000 :=
  emitSeq_cardinality_law (fun _ => 0) "alpha" FieldType.keyword none (some 10000) 1000
    (by decide) (by decide)

end CorpusGen
